import Mathlib

set_option maxRecDepth 4000
set_option maxHeartbeats 1000000

/-!
Verification of the DUET-Screen / HyperVS1000 candidate-ranking core.

The repository ships the same package twice (`duet_screen` and `hypervs1000`)
with complementary modules present; e.g. `duet_screen/utils.py` is the twin of
the `hypervs1000.utils` module imported by `hypervs1000/pipeline/dti.py`.  The
definitions below are shallow embeddings of the Python sources:

* `deterministic_score` (`duet_screen/utils.py`) including a full model of
  BLAKE2b with an 8-byte digest, as used by `hashlib.blake2b(...,
  digest_size=8)`;
* `chunked` (`duet_screen/utils.py`);
* the `GPUScheduler.dispatch` retry/round-robin loop
  (`hypervs1000/scheduler.py`);
* `weighted_average_rank` and `weighted_reciprocal_rank_fusion`
  (`hypervs1000/consensus.py`);
* the per-stage scoring cores of `dti.py`, `docking.py`, `mmgbsa.py` and the
  per-input fusion step of `aggregate.py`.

Machine integers are modelled as `Nat` with explicit reduction `% 2 ^ 64`
where 64-bit overflow matters.  Python `float` arithmetic on scores is
modelled by exact rationals (`ℚ`): every arithmetic operation the code
performs on scores (hash / 2^64, sums, divisions by weight totals) is exact
enough at the granularity the specification speaks about.  Python `dict`s are
modelled as insertion-ordered association lists, and Python's stable `sorted`
by a key, descending, is modelled by a stable insertion sort.
-/

namespace DuetScreen

/-- 2^64, the modulus of 64-bit word arithmetic. -/
def M64 : Nat := 2 ^ 64

/-- 64-bit addition (wrapping). -/
def add64 (a b : Nat) : Nat := (a + b) % M64

/-- 64-bit XOR (operands below 2^64 stay below 2^64). -/
def xor64 (a b : Nat) : Nat := Nat.xor a b

/-- Rotate a 64-bit word right by `n` bits (`0 < n < 64`). -/
def rotr64 (x n : Nat) : Nat :=
  Nat.lor (x >>> n) ((x <<< (64 - n)) % M64)

/-- The BLAKE2b initialization vector (the SHA-512 IV words). -/
def blakeIV : List Nat :=
  [0x6a09e667f3bcc908, 0xbb67ae8584caa73b, 0x3c6ef372fe94f82b, 0xa54ff53a5f1d36f1,
   0x510e527fade682d1, 0x9b05688c2b3e6c1f, 0x1f83d9abfb41bd6b, 0x5be0cd19137e2179]

/-- The BLAKE2b message schedule permutations. -/
def blakeSigma : List (List Nat) :=
  [[0, 1, 2, 3, 4, 5, 6, 7, 8, 9, 10, 11, 12, 13, 14, 15],
   [14, 10, 4, 8, 9, 15, 13, 6, 1, 12, 0, 2, 11, 7, 5, 3],
   [11, 8, 12, 0, 5, 2, 15, 13, 10, 14, 3, 6, 7, 1, 9, 4],
   [7, 9, 3, 1, 13, 12, 11, 14, 2, 6, 5, 10, 4, 0, 15, 8],
   [9, 0, 5, 7, 2, 4, 10, 15, 14, 1, 11, 12, 6, 8, 3, 13],
   [2, 12, 6, 10, 0, 11, 8, 3, 4, 13, 7, 5, 15, 14, 1, 9],
   [12, 5, 1, 15, 14, 13, 4, 10, 0, 7, 6, 3, 9, 2, 8, 11],
   [13, 11, 7, 14, 12, 1, 3, 9, 5, 0, 15, 4, 8, 6, 2, 10],
   [6, 15, 14, 9, 11, 3, 0, 8, 12, 2, 13, 7, 1, 4, 10, 5],
   [10, 2, 8, 4, 7, 6, 1, 5, 15, 11, 9, 14, 3, 12, 13, 0]]

/-- The BLAKE2b G mixing function acting on work-vector positions
`a b c d` with message words `x y`. -/
def gMix (v : List Nat) (a b c d : Nat) (x y : Nat) : List Nat :=
  let va := add64 (add64 (v.getD a 0) (v.getD b 0)) x
  let vd := rotr64 (xor64 (v.getD d 0) va) 32
  let vc := add64 (v.getD c 0) vd
  let vb := rotr64 (xor64 (v.getD b 0) vc) 24
  let va := add64 (add64 va vb) y
  let vd := rotr64 (xor64 vd va) 16
  let vc := add64 vc vd
  let vb := rotr64 (xor64 vb vc) 63
  ((((v.set a va).set b vb).set c vc).set d vd)

/-- One BLAKE2b round over the 16-word work vector `v` with message words `m`
and schedule row `s`. -/
def blakeRound (m : List Nat) (v : List Nat) (s : List Nat) : List Nat :=
  let mi := fun i => m.getD (s.getD i 0) 0
  let v := gMix v 0 4 8 12 (mi 0) (mi 1)
  let v := gMix v 1 5 9 13 (mi 2) (mi 3)
  let v := gMix v 2 6 10 14 (mi 4) (mi 5)
  let v := gMix v 3 7 11 15 (mi 6) (mi 7)
  let v := gMix v 0 5 10 15 (mi 8) (mi 9)
  let v := gMix v 1 6 11 12 (mi 10) (mi 11)
  let v := gMix v 2 7 8 13 (mi 12) (mi 13)
  gMix v 3 4 9 14 (mi 14) (mi 15)

/-- Little-endian interpretation of a byte list as a word. -/
def leWord (bs : List Nat) : Nat :=
  bs.foldr (fun b acc => b + 256 * acc) 0

/-- Split a padded 128-byte block into its 16 little-endian 64-bit words. -/
def blockWords (block : List Nat) : List Nat :=
  (List.range 16).map (fun i => leWord ((block.drop (8 * i)).take 8))

/-- Initial work vector of a compression: `h ++ IV` with the byte counter `t`
folded into words 12/13 and word 14 inverted on the final block. -/
def blakeVInit (h : List Nat) (t : Nat) (final : Bool) : List Nat :=
  let v := h ++ blakeIV
  let v := v.set 12 (xor64 (v.getD 12 0) (t % M64))
  let v := v.set 13 (xor64 (v.getD 13 0) (t / M64 % M64))
  if final then v.set 14 (xor64 (v.getD 14 0) (M64 - 1)) else v

/-- Rounds `i, i+1, ..., i+n-1` of a BLAKE2b compression, each using schedule
row `i mod 10`. -/
def blakeRoundsFrom (m : List Nat) : List Nat → Nat → Nat → List Nat
  | v, _, 0 => v
  | v, i, n + 1 => blakeRoundsFrom m (blakeRound m v (blakeSigma.getD (i % 10) [])) (i + 1) n

/-- Final state update of a compression: `h[j] ^= v[j] ^ v[j+8]`. -/
def blakeFinalize (h v : List Nat) : List Nat :=
  (List.range 8).map (fun i => xor64 (h.getD i 0) (xor64 (v.getD i 0) (v.getD (i + 8) 0)))

/-- The BLAKE2b compression function: state `h`, one 128-byte block `block`,
byte counter `t`, and the final-block flag; 12 rounds. -/
def blakeCompress (h : List Nat) (block : List Nat) (t : Nat) (final : Bool) : List Nat :=
  blakeFinalize h (blakeRoundsFrom (blockWords block) (blakeVInit h t final) 0 12)

/-- Pad a partial block with zero bytes up to 128 bytes. -/
def padBlock (m : List Nat) : List Nat :=
  m ++ List.replicate (128 - m.length) 0

/-- Process the message bytes in 128-byte blocks; the last (possibly empty)
block is padded and compressed with the final flag set, exactly as for an
unkeyed BLAKE2b. -/
def blakeLoop (h : List Nat) (msg : List Nat) (done : Nat) : List Nat :=
  if msg.length ≤ 128 then
    blakeCompress h (padBlock msg) (done + msg.length) true
  else
    blakeLoop (blakeCompress h (msg.take 128) (done + 128) false) (msg.drop 128) (done + 128)
termination_by msg.length
decreasing_by
  simp only [List.length_drop]
  omega

/-- Initial BLAKE2b state for an unkeyed hash with an 8-byte digest:
`IV[0]` is XORed with the parameter word `0x01010000 ^ digest_size`. -/
def blakeInit8 : List Nat :=
  (blakeIV.set 0 (xor64 (blakeIV.getD 0 0) 0x01010008))

/-- Big-endian reading of the 8 little-endian digest bytes of a 64-bit word:
this is `int.from_bytes(digest, byteorder="big")` applied to the 8-byte
little-endian digest, i.e. a byte swap. -/
def bswap64 (x : Nat) : Nat :=
  x % 256 * 72057594037927936 +
  x / 256 % 256 * 281474976710656 +
  x / 65536 % 256 * 1099511627776 +
  x / 16777216 % 256 * 4294967296 +
  x / 4294967296 % 256 * 16777216 +
  x / 1099511627776 % 256 * 65536 +
  x / 281474976710656 % 256 * 256 +
  x / 72057594037927936 % 256

/-- `int.from_bytes(hashlib.blake2b(bytes(msg), digest_size=8).digest(), "big")`:
the first state word of the finished BLAKE2b computation, byte-swapped. -/
def blake2b8 (msg : List Nat) : Nat :=
  bswap64 ((blakeLoop blakeInit8 msg 0).getD 0 0)

/-- UTF-8 encoding of a single code point. -/
def encodeUtf8Char (n : Nat) : List Nat :=
  if n < 0x80 then [n]
  else if n < 0x800 then [0xC0 + n / 64, 0x80 + n % 64]
  else if n < 0x10000 then [0xE0 + n / 4096, 0x80 + n / 64 % 64, 0x80 + n % 64]
  else [0xF0 + n / 262144, 0x80 + n / 4096 % 64, 0x80 + n / 64 % 64, 0x80 + n % 64]

/-- UTF-8 encoding of a string (`str.encode("utf-8")`), as a byte list. -/
def utf8Bytes (s : String) : List Nat :=
  s.data.foldr (fun c acc => encodeUtf8Char c.toNat ++ acc) []

/-- The numerator of `deterministic_score`: the 8-byte BLAKE2b digest of the
components joined with `"::"`, read as a big-endian unsigned integer
(`duet_screen/utils.py`, lines 28-32, before the division by `2.0 ** 64`). -/
def deterministicScoreNum (components : List String) : Nat :=
  blake2b8 (utf8Bytes (String.intercalate "::" components))

/-- `deterministic_score(*components)` from `duet_screen/utils.py`: the 8-byte
BLAKE2b digest of the `"::"`-joined components divided by `2 ** 64`, with the
Python float division modelled exactly over `ℚ`. -/
def deterministicScore (components : List String) : ℚ :=
  (deterministicScoreNum components : ℚ) / (2 ^ 64 : ℚ)

/-- `chunked(iterable, size)` from `duet_screen/utils.py`: repeatedly slice off
the next `size` elements (`itertools.islice`) until the slice comes back
empty. -/
def chunked (xs : List α) (size : Nat) : List (List α) :=
  if (xs.take size).isEmpty then []
  else xs.take size :: chunked (xs.drop size) size
termination_by xs.length
decreasing_by
  rename_i h
  simp only [List.isEmpty_eq_true, List.take_eq_nil_iff, not_or] at h
  simp only [List.length_drop]
  cases xs with
  | nil => simp at h
  | cons a l => cases size with
    | zero => simp at h
    | succ n => simp; omega

/-- A scheduler work unit (`Task` in `hypervs1000/scheduler.py`): name,
payload, and a mutable attempt counter (the `metadata` dict is omitted;
`dispatch` never touches it). -/
structure STask (α : Type) where
  name : String
  payload : α
  attempts : Nat
deriving DecidableEq, Repr

/-- Worker outcomes: Python's `RetryableError` is caught and retried by
`dispatch`; any other exception propagates immediately (`fatal`). -/
inductive WorkerErr where
  | retryable
  | fatal
deriving DecidableEq, Repr

/-- The device produced by the `i`-th `next()` on
`GPUScheduler._device_infinite_iterator`, which cycles through the device
pool forever: element `i mod len(devices)`. -/
def deviceAt (devices : List Nat) (i : Nat) : Nat :=
  devices.getD (i % devices.length) 0

/-- The `while queue:` loop of `GPUScheduler.dispatch`
(`hypervs1000/scheduler.py`, lines 41-66): pop the front task, draw the next
device, run the worker; on success append `(task, device, result)` to
`results`; on `RetryableError` increment `attempts` and either re-raise
(when `attempts > max_retries`) or push the task to the back of the queue;
any other worker exception propagates. `queue` is the remaining deque, `i`
the number of devices drawn so far, `acc` the results collected so far. -/
def dispatchAux (devices : List Nat) (maxRetries : Nat)
    (worker : STask α → Nat → Except WorkerErr β) :
    List (STask α) → Nat → List (STask α × Nat × β) →
      Except WorkerErr (List (STask α × Nat × β))
  | [], _, acc => .ok acc
  | t :: rest, i, acc =>
    match worker t (deviceAt devices i) with
    | .ok r => dispatchAux devices maxRetries worker rest (i + 1)
        (acc ++ [(t, deviceAt devices i, r)])
    | .error .retryable =>
        if t.attempts + 1 > maxRetries then .error .retryable
        else dispatchAux devices maxRetries worker
          (rest ++ [{ t with attempts := t.attempts + 1 }]) (i + 1) acc
    | .error .fatal => .error .fatal
termination_by q _ _ => (q.map (fun t => maxRetries + 1 - t.attempts)).sum + q.length

/-- `GPUScheduler.dispatch(tasks, worker)`: run the queue starting from the
submitted task list, an unconsumed device iterator and an empty result
list.  (The `GPUScheduler` constructor also rejects an empty device pool;
theorems that depend on it carry `devices ≠ []` as a hypothesis.) -/
def dispatch (devices : List Nat) (maxRetries : Nat)
    (worker : STask α → Nat → Except WorkerErr β) (tasks : List (STask α)) :
    Except WorkerErr (List (STask α × Nat × β)) :=
  dispatchAux devices maxRetries worker tasks 0 []

/-- `d[k] = d.get(k, 0.0) + v` on an insertion-ordered Python dict: update
the existing entry in place, else append a new entry at the end. -/
def dictAdd (k : String) (v : ℚ) : List (String × ℚ) → List (String × ℚ)
  | [] => [(k, v)]
  | (k', v') :: rest =>
      if k' = k then (k', v' + v) :: rest else (k', v') :: dictAdd k v rest

/-- `d.get(k)` on an insertion-ordered Python dict. -/
def dictFind (k : String) : List (String × ℚ) → Option ℚ
  | [] => none
  | (k', v) :: rest => if k' = k then some v else dictFind k rest

/-- The shared inner loop `for index, candidate in enumerate(ranking, start=idx):
acc[candidate] = acc.get(candidate, 0.0) + contrib(index)` of both fusion
functions in `hypervs1000/consensus.py` (`contrib` is `weight * index` for
`weighted_average_rank` and `weight / (constant + index)` for
`weighted_reciprocal_rank_fusion`). -/
def rankAccum (contrib : Nat → ℚ) :
    List (String × ℚ) → List String → Nat → List (String × ℚ)
  | acc, [], _ => acc
  | acc, c :: rest, idx => rankAccum contrib (dictAdd c (contrib idx) acc) rest (idx + 1)

/-- `weighted_average_rank(rank_lists, weights)` from
`hypervs1000/consensus.py`, lines 9-29, over exact rationals; the raised
`ValueError`s become `Except.error` with the source message. -/
def weighted_average_rank (rankLists : List (List String)) (weights : List ℚ) :
    Except String (List (String × ℚ)) :=
  if rankLists.length ≠ weights.length then
    .error "rank_lists and weights must be the same length."
  else if weights.sum ≤ 0 then
    .error "Sum of weights must be positive."
  else
    let totals := (rankLists.zip weights).foldl
      (fun acc p => rankAccum (fun i => p.2 * i) acc p.1 1) []
    .ok (totals.map (fun kv => (kv.1, kv.2 / weights.sum)))

/-- Stable insertion into a descending-by-second-component list: the new
element goes after every existing element with an equal or larger value.
Folding it left-to-right over a list reproduces Python's stable
`sorted(..., key=value, reverse=True)`. -/
def insertDesc (x : α × ℚ) : List (α × ℚ) → List (α × ℚ)
  | [] => [x]
  | y :: ys => if y.2 < x.2 then x :: y :: ys else y :: insertDesc x ys

/-- Python's stable `sorted(l, key=lambda item: item[1], reverse=True)`. -/
def sortDescBySnd (l : List (α × ℚ)) : List (α × ℚ) :=
  l.foldl (fun acc x => insertDesc x acc) []

/-- `weighted_reciprocal_rank_fusion(rank_lists, weights, constant=...)` from
`hypervs1000/consensus.py`, lines 32-53: skip lists with weight ≤ 0,
accumulate `weight / (constant + rank)`, and return the dict rebuilt in
descending fused-score order. -/
def weighted_reciprocal_rank_fusion (rankLists : List (List String))
    (weights : List ℚ) (constant : ℚ) : Except String (List (String × ℚ)) :=
  if rankLists.length ≠ weights.length then
    .error "rank_lists and weights must be the same length."
  else if constant ≤ 0 then
    .error "constant must be positive."
  else
    let fused := (rankLists.zip weights).foldl
      (fun acc p =>
        if p.2 ≤ 0 then acc
        else rankAccum (fun i => p.2 / (constant + i)) acc p.1 1) []
    .ok (sortDescBySnd fused)

/-- `InputRecord` from `duet_screen/pipeline/models.py`. -/
structure InputRecord where
  id : String
  type : String
  value : String
deriving DecidableEq, Repr

/-- `PartnerRecord` from `duet_screen/pipeline/models.py`. -/
structure PartnerRecord where
  id : String
  type : String
  value : String
deriving DecidableEq, Repr

/-- One emitted stage result row.  The dti stage additionally emits an
`input_type` field which neither later stage nor any claim reads; it is
omitted here. -/
structure ScoreRow where
  input_id : String
  partner_id : String
  partner_type : String
  stage : String
  score : ℚ
  rank : Nat
deriving DecidableEq, Repr

/-- `_rank_partners(record, partners, top_k)` from
`hypervs1000/pipeline/dti.py`, lines 49-74: score every partner with
`deterministic_score(record.value, partner.value, "dti")`, stable-sort
descending by score, truncate to `top_k`, and emit rows with 1-based
ranks. -/
def rankPartners (record : InputRecord) (partners : List PartnerRecord)
    (topK : Nat) : List ScoreRow :=
  let scored := partners.map
    (fun partner => (partner, deterministicScore [record.value, partner.value, "dti"]))
  ((sortDescBySnd scored).take topK).enum.map
    (fun p =>
      { input_id := record.id, partner_id := p.2.1.id, partner_type := p.2.1.type,
        stage := "dti", score := p.2.2, rank := p.1 + 1 })

/-- `_score_chunk(config, chunk)` from `hypervs1000/pipeline/dti.py`, lines
39-46, with `top_k = max(1, config.pipeline.dti_top_k)` on line 41 and
`opposite_partners(config, record.type)` abstracted as `partnersFor`. -/
def scoreChunk (dtiTopK : ℤ) (partnersFor : String → List PartnerRecord)
    (chunk : List InputRecord) : List ScoreRow :=
  (chunk.map (fun record =>
    rankPartners record (partnersFor record.type) (max 1 dtiTopK).toNat)).flatten

/-- The body of the per-input loop of `run_docking`
(`hypervs1000/pipeline/docking.py`, lines 26-44) for one input's candidate
rows, with `top_k = max(1, config.pipeline.docking_top_k)` from line 25:
re-score each candidate with
`deterministic_score(input_id, partner_id, "docking")`, stable-sort
descending, truncate, and emit rows with 1-based ranks. -/
def dockingScoreGroup (candidates : List ScoreRow) (dockingTopK : ℤ) : List ScoreRow :=
  let scored := candidates.map
    (fun item => (item, deterministicScore [item.input_id, item.partner_id, "docking"]))
  ((sortDescBySnd scored).take (max 1 dockingTopK).toNat).enum.map
    (fun p =>
      { input_id := p.2.1.input_id, partner_id := p.2.1.partner_id,
        partner_type := p.2.1.partner_type, stage := "docking",
        score := p.2.2, rank := p.1 + 1 })

/-- The body of the per-input loop of `run_mmgbsa`
(`duet_screen/pipeline/mmgbsa.py`, lines 26-44) for one input's candidate
rows, with `top_k = max(1, config.pipeline.mmgbsa_top_k)` from line 25. -/
def mmgbsaScoreGroup (candidates : List ScoreRow) (mmgbsaTopK : ℤ) : List ScoreRow :=
  let scored := candidates.map
    (fun item => (item, deterministicScore [item.input_id, item.partner_id, "mmgbsa"]))
  ((sortDescBySnd scored).take (max 1 mmgbsaTopK).toNat).enum.map
    (fun p =>
      { input_id := p.2.1.input_id, partner_id := p.2.1.partner_id,
        partner_type := p.2.1.partner_type, stage := "mmgbsa",
        score := p.2.2, rank := p.1 + 1 })

/-- `ordered = sorted(scores.items(), key=score, reverse=True)` followed by
`[item[0] for item in ordered]` (`duet_screen/pipeline/aggregate.py`, lines
57-58): the ranked partner list of one stage for one input. -/
def rankListOf (scores : List (String × ℚ)) : List String :=
  (sortDescBySnd scores).map Prod.fst

/-- The stage-selection loop of `run_aggregate`
(`duet_screen/pipeline/aggregate.py`, lines 52-62) for one input: each
stage contributes its ranked list and configured weight exactly when the
snapshot has a non-empty score dict for this input (`if not scores:
continue`); `none` models `stage.scores.get(input_id)` returning `None`. -/
def survivingStages (stages : List (Option (List (String × ℚ)) × ℚ)) :
    List (List (String × ℚ) × ℚ) :=
  stages.foldr
    (fun p acc =>
      match p.1 with
      | none => acc
      | some scores => if scores.isEmpty then acc else (scores, p.2) :: acc) []

/-- Lines 64-70 of `duet_screen/pipeline/aggregate.py` for one input:
skip the input when no stage survived (`if not rank_lists: continue`,
modelled as `none`), renormalize the surviving weights by their sum when
that sum is non-zero (`if weight_total` truthiness), and fuse with
`weighted_reciprocal_rank_fusion`. -/
def fuseInput (stages : List (Option (List (String × ℚ)) × ℚ)) (constant : ℚ) :
    Option (Except String (List (String × ℚ))) :=
  let surv := survivingStages stages
  if surv.isEmpty then none
  else
    let weights := surv.map Prod.snd
    let normalizedWeights :=
      if weights.sum ≠ 0 then weights.map (fun w => w / weights.sum) else weights
    some (weighted_reciprocal_rank_fusion (surv.map (fun p => rankListOf p.1))
      normalizedWeights constant)

/-- The per-candidate value `weighted_reciprocal_rank_fusion` is specified
to produce: the sum, over the lists that contain the candidate and have
positive weight, of `weight / (constant + rank)` with 1-based ranks. -/
def wrrfSpecScore (rankLists : List (List String)) (weights : List ℚ)
    (constant : ℚ) (c : String) : ℚ :=
  ((rankLists.zip weights).map
    (fun p => if 0 < p.2 ∧ c ∈ p.1 then p.2 / (constant + (p.1.indexOf c + 1)) else 0)).sum

/-- The per-candidate value `weighted_average_rank` is specified to produce:
the sum over lists containing the candidate of `weight * rank`, divided by
the sum of all weights. -/
def warSpecScore (rankLists : List (List String)) (weights : List ℚ) (c : String) : ℚ :=
  ((rankLists.zip weights).map
    (fun p => if c ∈ p.1 then p.2 * ((p.1.indexOf c + 1 : Nat) : ℚ) else 0)).sum / weights.sum

/-- The results of a dispatch whose worker always succeeds, starting from
device-iterator position `i`: each queued task is paired with the next
device in cyclic order and its worker result. -/
def okResults (devices : List Nat) (wf : STask α → Nat → β) :
    List (STask α) → Nat → List (STask α × Nat × β)
  | [], _ => []
  | t :: rest, i =>
      (t, deviceAt devices i, wf t (deviceAt devices i)) :: okResults devices wf rest (i + 1)


/-- Composing runs of BLAKE2b rounds: `a + b` rounds from `i` are `a` rounds
from `i` followed by `b` rounds from `i + a`. -/
theorem blakeRoundsFrom_add (m v : List Nat) (i a b : Nat) :
    blakeRoundsFrom m v i (a + b) = blakeRoundsFrom m (blakeRoundsFrom m v i a) (i + a) b := by
  induction a generalizing v i with
  | zero => simp [blakeRoundsFrom]
  | succ a ih =>
      have h1 : a + 1 + b = (a + b) + 1 := by omega
      rw [h1, blakeRoundsFrom, blakeRoundsFrom, ih]
      have h2 : i + (a + 1) = (i + 1) + a := by omega
      rw [h2]

/-- Concrete BLAKE2b evaluation: the components the docking stage actually hashes for the counterexample input,
staged through the 12 compression rounds in groups of four. -/
theorem dsNum_dock_ids : deterministicScoreNum ["i1", "p1", "docking"] = 6276215637575045397 := by
  have hbytes : utf8Bytes (String.intercalate "::" ["i1", "p1", "docking"]) =
      [105, 49, 58, 58, 112, 49, 58, 58, 100, 111, 99, 107, 105, 110, 103] := by decide
  have hm : blockWords (padBlock [105, 49, 58, 58, 112, 49, 58, 58, 100, 111, 99, 107, 105, 110, 103]) =
      [4195720360932028777, 29113321653497700, 0, 0, 0, 0, 0, 0, 0, 0, 0, 0, 0, 0, 0, 0] := by decide
  have hv0 : blakeVInit blakeInit8 15 true =
      [7640891576939301120, 13503953896175478587, 4354685564936845355, 11912009170470909681,
       5840696475078001361, 11170449401992604703, 2270897969802886507, 6620516959819538809,
       7640891576956012808, 13503953896175478587, 4354685564936845355, 11912009170470909681,
       5840696475078001374, 11170449401992604703, 16175846103906665108, 6620516959819538809] := by decide
  have h4 : blakeRoundsFrom
      [4195720360932028777, 29113321653497700, 0, 0, 0, 0, 0, 0, 0, 0, 0, 0, 0, 0, 0, 0]
      [7640891576939301120, 13503953896175478587, 4354685564936845355, 11912009170470909681,
       5840696475078001361, 11170449401992604703, 2270897969802886507, 6620516959819538809,
       7640891576956012808, 13503953896175478587, 4354685564936845355, 11912009170470909681,
       5840696475078001374, 11170449401992604703, 16175846103906665108, 6620516959819538809] 0 4 =
      [5882351569538957816, 5223881172941493196, 10974186400955046305, 9254118485631175330,
       14007779902199344511, 15857778696001625763, 452214672614950413, 13756176381561150247,
       13945368339315613629, 3805129127669192635, 4698383646881874224, 363348642385800740,
       8084459109963554131, 15400145325668452624, 4598419950424879037, 6195739895586081090] := by decide
  have h8 : blakeRoundsFrom
      [4195720360932028777, 29113321653497700, 0, 0, 0, 0, 0, 0, 0, 0, 0, 0, 0, 0, 0, 0]
      [5882351569538957816, 5223881172941493196, 10974186400955046305, 9254118485631175330,
       14007779902199344511, 15857778696001625763, 452214672614950413, 13756176381561150247,
       13945368339315613629, 3805129127669192635, 4698383646881874224, 363348642385800740,
       8084459109963554131, 15400145325668452624, 4598419950424879037, 6195739895586081090] 4 4 =
      [3067272106204585428, 13193612781085433838, 13368666821870468352, 10982389311150249857,
       10181817347123050412, 7686357154422441146, 5333883373386692635, 4118455394687360402,
       9911964007861151424, 17141534550080170474, 10502055584319205478, 7077996851082509540,
       785418136262926281, 155908956073141211, 5014158358774112837, 12767232646979427244] := by decide
  have h12 : blakeRoundsFrom
      [4195720360932028777, 29113321653497700, 0, 0, 0, 0, 0, 0, 0, 0, 0, 0, 0, 0, 0, 0]
      [3067272106204585428, 13193612781085433838, 13368666821870468352, 10982389311150249857,
       10181817347123050412, 7686357154422441146, 5333883373386692635, 4118455394687360402,
       9911964007861151424, 17141534550080170474, 10502055584319205478, 7077996851082509540,
       785418136262926281, 155908956073141211, 5014158358774112837, 12767232646979427244] 8 4 =
      [2666862501358933166, 1085838445673729514, 6474400578241389994, 14604458344178086118,
       3932372662527461559, 5574616839932662323, 7657002944352590793, 8601477111128465433,
       6528555540340720889, 17787688842191914043, 6709630813190445881, 11369947506396024183,
       11751933321514341180, 2385419176730947233, 11410844079304865797, 7759121033203755779] := by decide
  have hfin : blakeFinalize blakeInit8
      [2666862501358933166, 1085838445673729514, 6474400578241389994, 14604458344178086118,
       3932372662527461559, 5574616839932662323, 7657002944352590793, 8601477111128465433,
       6528555540340720889, 17787688842191914043, 6709630813190445881, 11369947506396024183,
       11751933321514341180, 2385419176730947233, 11410844079304865797, 7759121033203755779] =
      [1554139464594889047, 4804375532379942634, 4083119837793404600, 17449385056659737440,
       14162566778621712730, 17817043785416528013, 16977317201781841575, 5121639225276901987] := by decide
  have hsplit : blakeRoundsFrom
      [4195720360932028777, 29113321653497700, 0, 0, 0, 0, 0, 0, 0, 0, 0, 0, 0, 0, 0, 0]
      (blakeVInit blakeInit8 15 true) 0 12 =
      [2666862501358933166, 1085838445673729514, 6474400578241389994, 14604458344178086118,
       3932372662527461559, 5574616839932662323, 7657002944352590793, 8601477111128465433,
       6528555540340720889, 17787688842191914043, 6709630813190445881, 11369947506396024183,
       11751933321514341180, 2385419176730947233, 11410844079304865797, 7759121033203755779] := by
    rw [hv0, show (12 : Nat) = 4 + (4 + 4) from rfl, blakeRoundsFrom_add, blakeRoundsFrom_add, h4]
    norm_num [h8, h12]
  rw [deterministicScoreNum, blake2b8, hbytes, blakeLoop.eq_def]
  norm_num [blakeCompress, hm, hsplit, hfin]
  decide

/-- Concrete BLAKE2b evaluation: the components the specification says the docking stage should hash for the counterexample input,
staged through the 12 compression rounds in groups of four. -/
theorem dsNum_dock_values : deterministicScoreNum ["VAL_A", "VAL_B", "docking"] = 14016245997893911507 := by
  have hbytes : utf8Bytes (String.intercalate "::" ["VAL_A", "VAL_B", "docking"]) =
      [86, 65, 76, 95, 65, 58, 58, 86, 65, 76, 95, 66, 58, 58, 100, 111, 99, 107, 105, 110, 103] := by decide
  have hm : blockWords (padBlock [86, 65, 76, 95, 65, 58, 58, 86, 65, 76, 95, 66, 58, 58, 100, 111, 99, 107, 105, 110, 103]) =
      [6213342688357138774, 8026604457777122369, 444234034019, 0, 0, 0, 0, 0, 0, 0, 0, 0, 0, 0, 0,
       0] := by decide
  have hv0 : blakeVInit blakeInit8 21 true =
      [7640891576939301120, 13503953896175478587, 4354685564936845355, 11912009170470909681,
       5840696475078001361, 11170449401992604703, 2270897969802886507, 6620516959819538809,
       7640891576956012808, 13503953896175478587, 4354685564936845355, 11912009170470909681,
       5840696475078001348, 11170449401992604703, 16175846103906665108, 6620516959819538809] := by decide
  have h4 : blakeRoundsFrom
      [6213342688357138774, 8026604457777122369, 444234034019, 0, 0, 0, 0, 0, 0, 0, 0, 0, 0, 0, 0,
       0]
      [7640891576939301120, 13503953896175478587, 4354685564936845355, 11912009170470909681,
       5840696475078001361, 11170449401992604703, 2270897969802886507, 6620516959819538809,
       7640891576956012808, 13503953896175478587, 4354685564936845355, 11912009170470909681,
       5840696475078001348, 11170449401992604703, 16175846103906665108, 6620516959819538809] 0 4 =
      [11507931345706487864, 9236146556417410406, 18046467789752477343, 7330538113839069879,
       8352148096666486709, 9284843302658479863, 18143119236186385329, 3301006277855800680,
       14758245991172387988, 17448773574587857138, 15946556495796649742, 10474557389695662195,
       44035610504509915, 12802224486541802976, 9586584853904579607, 2737599643078635933] := by decide
  have h8 : blakeRoundsFrom
      [6213342688357138774, 8026604457777122369, 444234034019, 0, 0, 0, 0, 0, 0, 0, 0, 0, 0, 0, 0,
       0]
      [11507931345706487864, 9236146556417410406, 18046467789752477343, 7330538113839069879,
       8352148096666486709, 9284843302658479863, 18143119236186385329, 3301006277855800680,
       14758245991172387988, 17448773574587857138, 15946556495796649742, 10474557389695662195,
       44035610504509915, 12802224486541802976, 9586584853904579607, 2737599643078635933] 4 4 =
      [16329086136287668900, 7720360328615262743, 9637984726716049126, 4745144168096322371,
       1769350091014133210, 10771304884009262063, 16683283300348601431, 8794242883451707295,
       14318266330036950574, 14030358581436001612, 98274203812274945, 14068980459757032890,
       11309382386408334962, 2597220197248453485, 4990084215421246612, 4751973950443089689] := by decide
  have h12 : blakeRoundsFrom
      [6213342688357138774, 8026604457777122369, 444234034019, 0, 0, 0, 0, 0, 0, 0, 0, 0, 0, 0, 0,
       0]
      [16329086136287668900, 7720360328615262743, 9637984726716049126, 4745144168096322371,
       1769350091014133210, 10771304884009262063, 16683283300348601431, 8794242883451707295,
       14318266330036950574, 14030358581436001612, 98274203812274945, 14068980459757032890,
       11309382386408334962, 2597220197248453485, 4990084215421246612, 4751973950443089689] 8 4 =
      [7882562461698863291, 5909786606119606033, 17337624362467490745, 15308603429323993482,
       472639239691638286, 17476600982474797347, 18309124613356940285, 12804936300634454796,
       15307295191651318393, 17289564879751206878, 15539447103219764858, 12789480331752145411,
       18333039089003734585, 719579013938921582, 11492917477029252679, 11137619881133544581] := by decide
  have hfin : blakeFinalize blakeInit8
      [7882562461698863291, 5909786606119606033, 17337624362467490745, 15308603429323993482,
       472639239691638286, 17476600982474797347, 18309124613356940285, 12804936300634454796,
       15307295191651318393, 17289564879751206878, 15539447103219764858, 12789480331752145411,
       18333039089003734585, 719579013938921582, 11492917477029252679, 11137619881133544581] =
      [15205266475741184962, 474204769325918196, 1968735777760185832, 13853560731860813176,
       12244580911679976166, 6949131463363042642, 9145616714236745937, 8125706370787249904] := by decide
  have hsplit : blakeRoundsFrom
      [6213342688357138774, 8026604457777122369, 444234034019, 0, 0, 0, 0, 0, 0, 0, 0, 0, 0, 0, 0,
       0]
      (blakeVInit blakeInit8 21 true) 0 12 =
      [7882562461698863291, 5909786606119606033, 17337624362467490745, 15308603429323993482,
       472639239691638286, 17476600982474797347, 18309124613356940285, 12804936300634454796,
       15307295191651318393, 17289564879751206878, 15539447103219764858, 12789480331752145411,
       18333039089003734585, 719579013938921582, 11492917477029252679, 11137619881133544581] := by
    rw [hv0, show (12 : Nat) = 4 + (4 + 4) from rfl, blakeRoundsFrom_add, blakeRoundsFrom_add, h4]
    norm_num [h8, h12]
  rw [deterministicScoreNum, blake2b8, hbytes, blakeLoop.eq_def]
  norm_num [blakeCompress, hm, hsplit, hfin]
  decide


/-- A byte swap of a 64-bit word is below 2^64: each extracted byte is below
256 and the place values sum to at most 2^64 - 1. -/
theorem bswap64_lt (x : Nat) : bswap64 x < 2 ^ 64 := by
  unfold bswap64
  have h0 : x % 256 < 256 := Nat.mod_lt _ (by norm_num)
  have h1 : x / 256 % 256 < 256 := Nat.mod_lt _ (by norm_num)
  have h2 : x / 65536 % 256 < 256 := Nat.mod_lt _ (by norm_num)
  have h3 : x / 16777216 % 256 < 256 := Nat.mod_lt _ (by norm_num)
  have h4 : x / 4294967296 % 256 < 256 := Nat.mod_lt _ (by norm_num)
  have h5 : x / 1099511627776 % 256 < 256 := Nat.mod_lt _ (by norm_num)
  have h6 : x / 281474976710656 % 256 < 256 := Nat.mod_lt _ (by norm_num)
  have h7 : x / 72057594037927936 % 256 < 256 := Nat.mod_lt _ (by norm_num)
  have hpow : (2 : Nat) ^ 64 = 18446744073709551616 := by norm_num
  omega

/-- The big-endian digest value of `deterministic_score` always fits in 64
bits, because the digest is 8 bytes. -/
theorem deterministicScoreNum_lt (components : List String) :
    deterministicScoreNum components < 2 ^ 64 := by
  unfold deterministicScoreNum blake2b8
  exact bswap64_lt _

/-- C3: `deterministic_score` is a total pure function over ordered component
lists — identical ordered input yields identical output — and every value it
returns lies in the half-open interval `[0, 1)`, in particular strictly
below 1. -/
theorem deterministic_score_pure_and_in_unit :
    ∀ components components' : List String, components = components' →
      deterministicScore components = deterministicScore components' ∧
      0 ≤ deterministicScore components ∧ deterministicScore components < 1 := by
  intro cs cs' h
  subst h
  refine ⟨rfl, ?_, ?_⟩
  · unfold deterministicScore
    positivity
  · unfold deterministicScore
    rw [div_lt_one (by positivity)]
    exact_mod_cast deterministicScoreNum_lt cs

/-- Witness for C3 at the concrete component list `["a", "b", "dti"]`. -/
theorem deterministic_score_pure_and_in_unit_witness :
    deterministicScore ["a", "b", "dti"] = deterministicScore ["a", "b", "dti"] ∧
    0 ≤ deterministicScore ["a", "b", "dti"] ∧ deterministicScore ["a", "b", "dti"] < 1 :=
  deterministic_score_pure_and_in_unit ["a", "b", "dti"] ["a", "b", "dti"] rfl

/-- C9: for every list and every chunk size at least 1, the chunks produced
by `chunked` concatenate back to the input in order, every chunk is
non-empty with length at most `size`, and every chunk except possibly the
last has length exactly `size`. -/
theorem chunked_concat_and_lengths (α : Type) (xs : List α) (size : Nat) :
    1 ≤ size →
      (chunked xs size).flatten = xs ∧
      (∀ c ∈ chunked xs size, c ≠ [] ∧ c.length ≤ size) ∧
      (∀ c ∈ (chunked xs size).dropLast, c.length = size) := by
  induction xs, size using chunked.induct with
  | case1 xs size hemp =>
      intro hsize
      have hxs : xs = [] := by
        cases xs with
        | nil => rfl
        | cons a l =>
            cases size with
            | zero => omega
            | succ n => simp [List.take] at hemp
      subst hxs
      rw [chunked.eq_def, if_pos hemp]
      simp
  | case2 xs size hemp ih =>
      intro hsize
      obtain ⟨hj, hmem, hlast⟩ := ih hsize
      rw [chunked.eq_def, if_neg hemp]
      refine ⟨?_, ?_, ?_⟩
      · simp only [List.flatten_cons, hj]
        exact List.take_append_drop size xs
      · intro c hc
        rcases List.mem_cons.mp hc with rfl | hc'
        · refine ⟨?_, ?_⟩
          · intro h0
            rw [h0] at hemp
            simp at hemp
          · exact List.length_take_le size xs
        · exact hmem c hc'
      · cases hrest : chunked (xs.drop size) size with
        | nil => simp [hrest]
        | cons b l =>
            have hdrop_ne : xs.drop size ≠ [] := by
              intro h0
              have hnil : chunked (xs.drop size) size = [] := by
                rw [h0, chunked.eq_def]
                simp
              rw [hrest] at hnil
              simp at hnil
            have hlen : size ≤ xs.length := by
              by_contra hcon
              push_neg at hcon
              exact hdrop_ne (List.drop_eq_nil_of_le (by omega))
            intro c hc
            rw [List.dropLast_cons₂] at hc
            rcases List.mem_cons.mp hc with rfl | hc'
            · rw [List.length_take]
              omega
            · rw [hrest] at hlast
              exact hlast c hc'

/-- Witness for C9 at `xs = [1, 2, 3, 4, 5]` and `size = 2`. -/
theorem chunked_concat_and_lengths_witness :
    (chunked [1, 2, 3, 4, 5] 2).flatten = [1, 2, 3, 4, 5] ∧
    (∀ c ∈ chunked [1, 2, 3, 4, 5] 2, c ≠ [] ∧ c.length ≤ 2) ∧
    (∀ c ∈ (chunked [1, 2, 3, 4, 5] 2).dropLast, c.length = 2) :=
  chunked_concat_and_lengths Nat [1, 2, 3, 4, 5] 2 (by decide)

/-- A dispatch whose worker always succeeds processes the queue in order,
appending one result per popped task. -/
theorem dispatchAux_all_ok (α β : Type) (devices : List Nat) (maxRetries : Nat)
    (wf : STask α → Nat → β) :
    ∀ (q : List (STask α)) (i : Nat) (acc : List (STask α × Nat × β)),
      dispatchAux devices maxRetries (fun t d => .ok (wf t d)) q i acc =
        .ok (acc ++ okResults devices wf q i) := by
  intro q
  induction q with
  | nil =>
      intro i acc
      rw [dispatchAux.eq_def]
      simp [okResults]
  | cons t rest ih =>
      intro i acc
      rw [dispatchAux.eq_def]
      simp only [okResults, ih, List.append_assoc, List.singleton_append]

/-- The devices recorded by an all-success dispatch starting at iterator
position `i` are the pool entries at positions `i, i+1, ...` modulo the pool
size. -/
theorem okResults_map_devices (α β : Type) (devices : List Nat) (wf : STask α → Nat → β) :
    ∀ (q : List (STask α)) (i : Nat),
      (okResults devices wf q i).map (fun x => x.2.1) =
        (List.range' i q.length).map (deviceAt devices) := by
  intro q
  induction q with
  | nil => intro i; simp [okResults]
  | cons t rest ih =>
      intro i
      simp [okResults, List.range', ih]

/-- C5: on a retryable worker failure `dispatch` increments the popped task's
attempt counter; if the counter then exceeds `max_retries` the retryable
failure propagates (so no result list is returned), otherwise the task is
pushed to the back of the queue and dispatching continues.  In particular,
with `max_retries = 0` and a worker that always fails retryably, `dispatch`
propagates the failure and yields no results. -/
theorem dispatch_retry_increments_exhausts_or_requeues (α β : Type) :
    (∀ (devices : List Nat) (maxRetries : Nat)
       (worker : STask α → Nat → Except WorkerErr β)
       (t : STask α) (rest : List (STask α)) (i : Nat) (acc : List (STask α × Nat × β)),
       worker t (deviceAt devices i) = .error .retryable →
         dispatchAux devices maxRetries worker (t :: rest) i acc =
           if t.attempts + 1 > maxRetries then .error .retryable
           else dispatchAux devices maxRetries worker
             (rest ++ [{ t with attempts := t.attempts + 1 }]) (i + 1) acc) ∧
    (∀ (devices : List Nat) (worker : STask α → Nat → Except WorkerErr β),
       devices ≠ [] → (∀ t d, worker t d = .error .retryable) →
       ∀ (t : STask α) (rest : List (STask α)),
         dispatch devices 0 worker (t :: rest) = .error .retryable) := by
  constructor
  · intro devices maxRetries worker t rest i acc h
    rw [dispatchAux.eq_def]
    simp only [h]
  · intro devices worker hdev hw t rest
    rw [dispatch, dispatchAux.eq_def]
    simp [hw]

/-- The always-retryable worker used to witness C5. -/
def alwaysRetry (α β : Type) : STask α → Nat → Except WorkerErr β :=
  fun _ _ => .error .retryable

/-- Witness for C5: one task, one device, `max_retries = 0`, a worker that
always fails retryably. -/
theorem dispatch_retry_increments_exhausts_or_requeues_witness :
    (dispatchAux [0] 0 (alwaysRetry Nat Nat) [⟨"t", 0, 0⟩] 0 [] =
      if (0 : Nat) + 1 > 0 then .error .retryable
      else dispatchAux [0] 0 (alwaysRetry Nat Nat) ([] ++ [⟨"t", 0, 1⟩]) 1 []) ∧
    dispatch [0] 0 (alwaysRetry Nat Nat) [⟨"t", 0, 0⟩] = .error .retryable :=
  ⟨(dispatch_retry_increments_exhausts_or_requeues Nat Nat).1 [0] 0 (alwaysRetry Nat Nat)
      ⟨"t", 0, 0⟩ [] 0 [] rfl,
   (dispatch_retry_increments_exhausts_or_requeues Nat Nat).2 [0] (alwaysRetry Nat Nat)
      (by decide) (fun _ _ => rfl) ⟨"t", 0, 0⟩ []⟩

/-- C8: devices are assigned round-robin over popped tasks — the pool index
advances by exactly one per pop, cycling with wraparound.  With a worker
that never fails the recorded device of the `k`-th task is pool entry
`k mod len(devices)`; with devices `[0, 1]` and four tasks the assignment
sequence is `[0, 1, 0, 1]`; and the index keeps advancing across retries
(two tasks on three devices, each failing once, finish on devices 2 and 0). -/
theorem dispatch_round_robin_assignment (α β : Type) :
    (∀ (devices : List Nat) (maxRetries : Nat) (wf : STask α → Nat → β)
       (tasks : List (STask α)),
       dispatch devices maxRetries (fun t d => .ok (wf t d)) tasks =
         .ok (okResults devices wf tasks 0) ∧
       (okResults devices wf tasks 0).map (fun x => x.2.1) =
         (List.range tasks.length).map (fun k => deviceAt devices k)) ∧
    (dispatch [0, 1] 0 (fun (t : STask Nat) _ => (Except.ok t.payload : Except WorkerErr Nat))
        [⟨"task_0", 0, 0⟩, ⟨"task_1", 1, 0⟩, ⟨"task_2", 2, 0⟩, ⟨"task_3", 3, 0⟩] =
      .ok [(⟨"task_0", 0, 0⟩, 0, 0), (⟨"task_1", 1, 0⟩, 1, 1),
           (⟨"task_2", 2, 0⟩, 0, 2), (⟨"task_3", 3, 0⟩, 1, 3)]) ∧
    (dispatch [0, 1, 2] 1 (fun (t : STask Nat) _ =>
        if t.attempts = 0 then (Except.error WorkerErr.retryable : Except WorkerErr Nat)
        else Except.ok t.attempts)
        [⟨"a", 0, 0⟩, ⟨"b", 1, 0⟩] =
      .ok [(⟨"a", 0, 1⟩, 2, 1), (⟨"b", 1, 1⟩, 0, 1)]) := by
  refine ⟨?_, ?_, ?_⟩
  · intro devices maxRetries wf tasks
    refine ⟨dispatchAux_all_ok α β devices maxRetries wf tasks 0 [], ?_⟩
    rw [okResults_map_devices α β devices wf tasks 0, List.range_eq_range']
  · simp [dispatch, dispatchAux, deviceAt]
  · simp [dispatch, dispatchAux, deviceAt]

/-- Invariant of the dispatch loop: a normal return carries one result per
queued task (identified by name and payload, since the attempt counter is
updated in place), plus whatever was already accumulated, and every result's
attempt counter is at most `max_retries` provided the queued and accumulated
tasks satisfy the same bound. -/
theorem dispatchAux_ok_perm (α β : Type) (devices : List Nat) (maxRetries : Nat)
    (worker : STask α → Nat → Except WorkerErr β) :
    ∀ (q : List (STask α)) (i : Nat) (acc : List (STask α × Nat × β)),
      ∀ res, dispatchAux devices maxRetries worker q i acc = .ok res →
        (∀ t ∈ q, t.attempts ≤ maxRetries) →
        (∀ x ∈ acc, x.1.attempts ≤ maxRetries) →
        (res.map (fun x => (x.1.name, x.1.payload))).Perm
          (acc.map (fun x => (x.1.name, x.1.payload)) ++ q.map (fun t => (t.name, t.payload))) ∧
        (∀ x ∈ res, x.1.attempts ≤ maxRetries) := by
  intro q i acc
  induction q, i, acc using dispatchAux.induct devices maxRetries worker with
  | case1 i acc =>
      intro res heq hq hacc
      rw [dispatchAux.eq_def] at heq
      simp only [Except.ok.injEq] at heq
      subst heq
      simpa using hacc
  | case2 t rest i acc r hw ih =>
      intro res heq hq hacc
      rw [dispatchAux.eq_def] at heq
      simp only [hw] at heq
      have hq' : ∀ t' ∈ rest, t'.attempts ≤ maxRetries :=
        fun t' ht' => hq t' (List.mem_cons_of_mem _ ht')
      have hacc' : ∀ x ∈ acc ++ [(t, deviceAt devices i, r)], x.1.attempts ≤ maxRetries := by
        intro x hx
        rcases List.mem_append.mp hx with hx' | hx'
        · exact hacc x hx'
        · rcases List.mem_singleton.mp hx' with rfl
          exact hq t (List.mem_cons_self _ _)
      obtain ⟨hperm, hbound⟩ := ih res heq hq' hacc'
      refine ⟨?_, hbound⟩
      simpa [List.append_assoc] using hperm
  | case3 t rest i acc hw hg =>
      intro res heq hq hacc
      rw [dispatchAux.eq_def] at heq
      simp only [hw, if_pos hg] at heq
      cases heq
  | case4 t rest i acc hw hg ih =>
      intro res heq hq hacc
      rw [dispatchAux.eq_def] at heq
      simp only [hw, if_neg hg] at heq
      have hq' : ∀ t' ∈ rest ++ [{ t with attempts := t.attempts + 1 }],
          t'.attempts ≤ maxRetries := by
        intro t' ht'
        rcases List.mem_append.mp ht' with ht'' | ht''
        · exact hq t' (List.mem_cons_of_mem _ ht'')
        · rcases List.mem_singleton.mp ht'' with rfl
          show t.attempts + 1 ≤ maxRetries
          omega
      obtain ⟨hperm, hbound⟩ := ih res heq hq' hacc
      refine ⟨?_, hbound⟩
      refine hperm.trans ?_
      simp only [List.map_append, List.map_cons, List.map_nil]
      exact ((List.perm_append_singleton _ _).append_left _)
  | case5 t rest i acc hw =>
      intro res heq hq hacc
      rw [dispatchAux.eq_def] at heq
      simp only [hw] at heq
      cases heq

/-- C10: whenever `dispatch` returns normally, every submitted task (with its
attempt counter initialized to 0) appears exactly once in the result list —
none dropped, none duplicated — and every returned task's attempt counter is
at most `max_retries`. -/
theorem dispatch_ok_results_complete (α β : Type)
    (devices : List Nat) (maxRetries : Nat)
    (worker : STask α → Nat → Except WorkerErr β)
    (tasks : List (STask α)) (res : List (STask α × Nat × β))
    (hinit : ∀ t ∈ tasks, t.attempts = 0)
    (hok : dispatch devices maxRetries worker tasks = .ok res) :
    (res.map (fun x => (x.1.name, x.1.payload))).Perm
      (tasks.map (fun t => (t.name, t.payload))) ∧
    (∀ x ∈ res, x.1.attempts ≤ maxRetries) := by
  have h := dispatchAux_ok_perm α β devices maxRetries worker tasks 0 [] res hok
    (fun t ht => by rw [hinit t ht]; exact Nat.zero_le _) (by simp)
  simpa using h

/-- Witness for C10: a single task dispatched on one device with a worker
that succeeds immediately. -/
theorem dispatch_ok_results_complete_witness :
    (([((⟨"t", 5, 0⟩ : STask Nat), 0, 7)].map (fun x => (x.1.name, x.1.payload))).Perm
      ([(⟨"t", 5, 0⟩ : STask Nat)].map (fun t => (t.name, t.payload)))) ∧
    (∀ x ∈ [((⟨"t", 5, 0⟩ : STask Nat), 0, 7)], x.1.attempts ≤ 0) :=
  dispatch_ok_results_complete Nat Nat [0] 0 (fun _ _ => Except.ok 7) [⟨"t", 5, 0⟩]
    [(⟨"t", 5, 0⟩, 0, 7)] (by simp) (by simp [dispatch, dispatchAux, deviceAt])

/-- Updating a key in the ordered-dict model changes exactly that key's
value, adding the previous value (0 when absent). -/
theorem dictFind_dictAdd_self (k : String) (v : ℚ) (d : List (String × ℚ)) :
    dictFind k (dictAdd k v d) = some ((dictFind k d).getD 0 + v) := by
  induction d with
  | nil => simp [dictAdd, dictFind]
  | cons kv rest ih =>
      obtain ⟨k', v'⟩ := kv
      by_cases h : k' = k
      · subst h
        simp [dictAdd, dictFind]
      · simp [dictAdd, dictFind, h, ih]

/-- Updating a key in the ordered-dict model leaves other keys' values
unchanged. -/
theorem dictFind_dictAdd_other (k k' : String) (v : ℚ) (d : List (String × ℚ))
    (h : k' ≠ k) : dictFind k' (dictAdd k v d) = dictFind k' d := by
  induction d with
  | nil =>
      simp only [dictAdd, dictFind]
      rw [if_neg (fun he => h he.symm)]
  | cons kv rest ih =>
      obtain ⟨k'', v''⟩ := kv
      by_cases h2 : k'' = k
      · subst h2
        simp only [dictAdd, if_pos rfl, dictFind]
        rw [if_neg (fun he => h he.symm), if_neg (fun he => h he.symm)]
      · simp only [dictAdd, if_neg h2, dictFind]
        by_cases h3 : k'' = k'
        · rw [if_pos h3, if_pos h3]
        · rw [if_neg h3, if_neg h3, ih]

/-- A key in an updated dict is the updated key or one of the old keys. -/
theorem mem_keys_dictAdd (a k : String) (v : ℚ) (d : List (String × ℚ)) :
    a ∈ (dictAdd k v d).map Prod.fst ↔ a = k ∨ a ∈ d.map Prod.fst := by
  induction d with
  | nil => simp [dictAdd]
  | cons kv rest ih =>
      obtain ⟨k', v'⟩ := kv
      by_cases h : k' = k
      · subst h
        rw [dictAdd, if_pos rfl]
        simp only [List.map_cons, List.mem_cons]
        tauto
      · rw [dictAdd, if_neg h]
        simp only [List.map_cons, List.mem_cons, ih]
        tauto

/-- Updating a key preserves distinctness of the dict's keys. -/
theorem keys_nodup_dictAdd (k : String) (v : ℚ) (d : List (String × ℚ))
    (h : (d.map Prod.fst).Nodup) : ((dictAdd k v d).map Prod.fst).Nodup := by
  induction d with
  | nil => simp [dictAdd]
  | cons kv rest ih =>
      obtain ⟨k', v'⟩ := kv
      simp only [List.map_cons, List.nodup_cons] at h
      by_cases h2 : k' = k
      · subst h2
        simpa [dictAdd] using h
      · simp only [dictAdd, if_neg h2, List.map_cons, List.nodup_cons]
        refine ⟨?_, ih h.2⟩
        rw [mem_keys_dictAdd]
        rintro (rfl | hmem)
        · exact h2 rfl
        · exact h.1 hmem

/-- With distinct keys, association-list membership determines the looked-up
value. -/
theorem dictFind_eq_of_mem (c : String) (v : ℚ) (d : List (String × ℚ))
    (hnd : (d.map Prod.fst).Nodup) (h : (c, v) ∈ d) : dictFind c d = some v := by
  induction d with
  | nil => simp at h
  | cons kv rest ih =>
      obtain ⟨k', v'⟩ := kv
      simp only [List.map_cons, List.nodup_cons] at hnd
      rcases List.mem_cons.mp h with heq | hmem
      · injection heq with h1 h2
        subst h1
        subst h2
        simp [dictFind]
      · have hkey : k' ≠ c := by
          intro he
          subst he
          exact hnd.1 (List.mem_map.mpr ⟨(k', v), hmem, rfl⟩)
        simp [dictFind, hkey, ih hnd.2 hmem]

/-- A successful lookup comes from an actual entry of the association list. -/
theorem mem_of_dictFind_eq (c : String) (v : ℚ) (d : List (String × ℚ))
    (h : dictFind c d = some v) : (c, v) ∈ d := by
  induction d with
  | nil => simp [dictFind] at h
  | cons kv rest ih =>
      obtain ⟨k', v'⟩ := kv
      by_cases h2 : k' = c
      · subst h2
        simp [dictFind] at h
        simp [h]
      · simp [dictFind, h2] at h
        exact List.mem_cons_of_mem _ (ih h)

/-- A lookup succeeds exactly on the dict's keys. -/
theorem dictFind_isSome_iff (c : String) (d : List (String × ℚ)) :
    (dictFind c d).isSome ↔ c ∈ d.map Prod.fst := by
  induction d with
  | nil => simp [dictFind]
  | cons kv rest ih =>
      obtain ⟨k', v'⟩ := kv
      by_cases h : k' = c
      · subst h
        simp [dictFind]
      · have h' : ¬(c = k') := fun he => h he.symm
        simp [dictFind, h, h', ih]

/-- A ranking pass does not touch candidates outside the ranking. -/
theorem rankAccum_find_not_mem (contrib : Nat → ℚ) (c : String) :
    ∀ (l : List String) (acc : List (String × ℚ)) (idx : Nat), c ∉ l →
      dictFind c (rankAccum contrib acc l idx) = dictFind c acc := by
  intro l
  induction l with
  | nil => intro acc idx _; simp [rankAccum]
  | cons a rest ih =>
      intro acc idx h
      rw [rankAccum, ih _ _ (fun hm => h (List.mem_cons_of_mem _ hm))]
      exact dictFind_dictAdd_other a c _ acc (fun he => h (he ▸ List.mem_cons_self a rest))

/-- A ranking pass adds exactly one contribution, at the candidate's 1-based
position offset by the enumeration start, to each candidate of a
duplicate-free ranking. -/
theorem rankAccum_find_mem (contrib : Nat → ℚ) (c : String) :
    ∀ (l : List String) (acc : List (String × ℚ)) (idx : Nat), l.Nodup → c ∈ l →
      dictFind c (rankAccum contrib acc l idx) =
        some ((dictFind c acc).getD 0 + contrib (idx + l.indexOf c)) := by
  intro l
  induction l with
  | nil => intro acc idx _ h; simp at h
  | cons a rest ih =>
      intro acc idx hnd hc
      rw [rankAccum]
      by_cases he : c = a
      · subst he
        have hnotin : c ∉ rest := (List.nodup_cons.mp hnd).1
        rw [rankAccum_find_not_mem contrib c rest _ _ hnotin, dictFind_dictAdd_self]
        simp
      · have hmem : c ∈ rest := by
          rcases List.mem_cons.mp hc with h1 | h1
          · exact absurd h1 he
          · exact h1
        rw [ih _ _ (List.nodup_cons.mp hnd).2 hmem, dictFind_dictAdd_other a c _ acc he]
        have harith : idx + 1 + rest.indexOf c = idx + (a :: rest).indexOf c := by
          rw [List.indexOf_cons_ne _ (fun h2 => he h2.symm)]
          omega
        rw [harith]

/-- The combined effect of one ranking pass on a candidate's accumulated
value. -/
theorem rankAccum_find_getD (contrib : Nat → ℚ) (c : String)
    (l : List String) (acc : List (String × ℚ)) (idx : Nat) (hnd : l.Nodup) :
    (dictFind c (rankAccum contrib acc l idx)).getD 0 =
      (dictFind c acc).getD 0 + (if c ∈ l then contrib (idx + l.indexOf c) else 0) := by
  by_cases hc : c ∈ l
  · rw [rankAccum_find_mem contrib c l acc idx hnd hc]
    simp [hc]
  · rw [rankAccum_find_not_mem contrib c l acc idx hc]
    simp [hc]

/-- A ranking pass creates entries exactly for the ranking's candidates. -/
theorem rankAccum_find_isSome (contrib : Nat → ℚ) (c : String) :
    ∀ (l : List String) (acc : List (String × ℚ)) (idx : Nat),
      (dictFind c (rankAccum contrib acc l idx)).isSome ↔
        (dictFind c acc).isSome ∨ c ∈ l := by
  intro l
  induction l with
  | nil => intro acc idx; simp [rankAccum]
  | cons a rest ih =>
      intro acc idx
      rw [rankAccum, ih]
      rw [dictFind_isSome_iff, mem_keys_dictAdd, ← dictFind_isSome_iff]
      simp only [List.mem_cons]
      tauto

/-- A ranking pass keeps the accumulator's keys duplicate-free. -/
theorem keys_nodup_rankAccum (contrib : Nat → ℚ) :
    ∀ (l : List String) (acc : List (String × ℚ)) (idx : Nat),
      (acc.map Prod.fst).Nodup → ((rankAccum contrib acc l idx).map Prod.fst).Nodup := by
  intro l
  induction l with
  | nil => intro acc idx h; simpa [rankAccum] using h
  | cons a rest ih =>
      intro acc idx h
      rw [rankAccum]
      exact ih _ _ (keys_nodup_dictAdd a _ acc h)

/-- Membership in a stable descending insertion. -/
theorem mem_insertDesc (α : Type) (x a : α × ℚ) :
    ∀ l : List (α × ℚ), a ∈ insertDesc x l ↔ a = x ∨ a ∈ l := by
  intro l
  induction l with
  | nil => simp [insertDesc]
  | cons y ys ih =>
      simp only [insertDesc]
      by_cases h : y.2 < x.2
      · simp only [if_pos h, List.mem_cons]
      · simp only [if_neg h, List.mem_cons, ih]
        tauto

/-- A stable descending insertion permutes consing. -/
theorem insertDesc_perm (α : Type) (x : α × ℚ) :
    ∀ l : List (α × ℚ), (insertDesc x l).Perm (x :: l) := by
  intro l
  induction l with
  | nil => simp [insertDesc]
  | cons y ys ih =>
      simp only [insertDesc]
      by_cases h : y.2 < x.2
      · simp [h]
      · rw [if_neg h]
        exact (List.Perm.cons y ih).trans (List.Perm.swap x y ys)

/-- The stable descending sort permutes its input. -/
theorem sortDescBySnd_perm (α : Type) (l : List (α × ℚ)) : (sortDescBySnd l).Perm l := by
  have h : ∀ (l acc : List (α × ℚ)),
      (l.foldl (fun acc x => insertDesc x acc) acc).Perm (acc ++ l) := by
    intro l
    induction l with
    | nil => intro acc; simp
    | cons x rest ih =>
        intro acc
        rw [List.foldl_cons]
        refine (ih (insertDesc x acc)).trans ?_
        refine (List.Perm.append_right rest (insertDesc_perm α x acc)).trans ?_
        exact List.perm_middle.symm
  simpa using h l []

/-- Inserting into a descending-by-value list keeps it descending. -/
theorem pairwise_insertDesc (α : Type) (x : α × ℚ) (l : List (α × ℚ))
    (h : l.Pairwise (fun a b => b.2 ≤ a.2)) :
    (insertDesc x l).Pairwise (fun a b => b.2 ≤ a.2) := by
  induction l with
  | nil => simp [insertDesc]
  | cons y ys ih =>
      rw [List.pairwise_cons] at h
      obtain ⟨hy, hys⟩ := h
      simp only [insertDesc]
      by_cases hcmp : y.2 < x.2
      · rw [if_pos hcmp]
        refine List.pairwise_cons.mpr ⟨?_, List.pairwise_cons.mpr ⟨hy, hys⟩⟩
        intro b hb
        rcases List.mem_cons.mp hb with rfl | hb'
        · exact le_of_lt hcmp
        · exact (hy b hb').trans (le_of_lt hcmp)
      · rw [if_neg hcmp]
        push_neg at hcmp
        refine List.pairwise_cons.mpr ⟨?_, ih hys⟩
        intro b hb
        rcases (mem_insertDesc α x b ys).mp hb with rfl | hb'
        · exact hcmp
        · exact hy b hb'

/-- The stable descending sort produces a descending-by-value list. -/
theorem sortDescBySnd_pairwise (α : Type) (l : List (α × ℚ)) :
    (sortDescBySnd l).Pairwise (fun a b => b.2 ≤ a.2) := by
  have h : ∀ (l acc : List (α × ℚ)), acc.Pairwise (fun a b => b.2 ≤ a.2) →
      (l.foldl (fun acc x => insertDesc x acc) acc).Pairwise (fun a b => b.2 ≤ a.2) := by
    intro l
    induction l with
    | nil => intro acc hacc; simpa using hacc
    | cons x rest ih => intro acc hacc; exact ih _ (pairwise_insertDesc α x acc hacc)
  exact h l [] (by simp)

/-- Decidable equality of fusion results, for concrete evaluations. -/
instance : DecidableEq (Except String (List (String × ℚ))) :=
  fun a b =>
    match a, b with
    | .error x, .error y =>
        if h : x = y then .isTrue (h ▸ rfl)
        else .isFalse (fun hc => h (Except.error.inj hc))
    | .ok x, .ok y =>
        if h : x = y then .isTrue (h ▸ rfl)
        else .isFalse (fun hc => h (Except.ok.inj hc))
    | .error _, .ok _ => .isFalse (fun hc => Except.noConfusion hc)
    | .ok _, .error _ => .isFalse (fun hc => Except.noConfusion hc)

/-- Accumulated value of the WRRF fold: each positive-weight ranking
containing a candidate adds `weight / (constant + rank)`. -/
theorem wrrfFold_getD (K : ℚ) (c : String) :
    ∀ (ps : List (List String × ℚ)) (acc : List (String × ℚ)),
      (∀ p ∈ ps, p.1.Nodup) →
      (dictFind c (ps.foldl (fun acc p =>
          if p.2 ≤ 0 then acc
          else rankAccum (fun i => p.2 / (K + i)) acc p.1 1) acc)).getD 0 =
        (dictFind c acc).getD 0 +
        (ps.map (fun p =>
          if 0 < p.2 ∧ c ∈ p.1 then p.2 / (K + (p.1.indexOf c + 1)) else 0)).sum := by
  intro ps
  induction ps with
  | nil => intro acc _; simp
  | cons p rest ih =>
      intro acc hnd
      rw [List.foldl_cons, List.map_cons, List.sum_cons]
      by_cases hw : p.2 ≤ 0
      · rw [if_pos hw, ih acc (fun q hq => hnd q (List.mem_cons_of_mem _ hq)),
          if_neg (fun hcontra => absurd hcontra.1 (not_lt.mpr hw))]
        ring
      · rw [if_neg hw, ih _ (fun q hq => hnd q (List.mem_cons_of_mem _ hq)),
          rankAccum_find_getD _ c p.1 acc 1 (hnd p (List.mem_cons_self _ _))]
        push_neg at hw
        by_cases hc : c ∈ p.1
        · rw [if_pos hc, if_pos ⟨hw, hc⟩]
          have harith : 1 + p.1.indexOf c = p.1.indexOf c + 1 := Nat.add_comm 1 _
          rw [harith]
          push_cast
          ring
        · rw [if_neg hc, if_neg (fun hcontra => hc hcontra.2)]
          ring

/-- Domain of the WRRF fold: a candidate gets an entry exactly when some
positive-weight ranking contains it. -/
theorem wrrfFold_isSome (K : ℚ) (c : String) :
    ∀ (ps : List (List String × ℚ)) (acc : List (String × ℚ)),
      (dictFind c (ps.foldl (fun acc p =>
          if p.2 ≤ 0 then acc
          else rankAccum (fun i => p.2 / (K + i)) acc p.1 1) acc)).isSome ↔
        (dictFind c acc).isSome ∨ ∃ p ∈ ps, 0 < p.2 ∧ c ∈ p.1 := by
  intro ps
  induction ps with
  | nil => intro acc; simp
  | cons p rest ih =>
      intro acc
      rw [List.foldl_cons]
      by_cases hw : p.2 ≤ 0
      · rw [if_pos hw, ih]
        simp only [List.mem_cons]
        constructor
        · rintro (h | ⟨q, hq, hqq⟩)
          · exact Or.inl h
          · exact Or.inr ⟨q, Or.inr hq, hqq⟩
        · rintro (h | ⟨q, (rfl | hq), hqq⟩)
          · exact Or.inl h
          · exact absurd hqq.1 (not_lt.mpr hw)
          · exact Or.inr ⟨q, hq, hqq⟩
      · rw [if_neg hw, ih, rankAccum_find_isSome]
        push_neg at hw
        simp only [List.mem_cons]
        constructor
        · rintro ((h | hcl) | ⟨q, hq, hqq⟩)
          · exact Or.inl h
          · exact Or.inr ⟨p, Or.inl rfl, hw, hcl⟩
          · exact Or.inr ⟨q, Or.inr hq, hqq⟩
        · rintro (h | ⟨q, (rfl | hq), hqq⟩)
          · exact Or.inl (Or.inl h)
          · exact Or.inl (Or.inr hqq.2)
          · exact Or.inr ⟨q, hq, hqq⟩

/-- The WRRF fold keeps the accumulator's keys duplicate-free. -/
theorem keys_nodup_wrrfFold (K : ℚ) :
    ∀ (ps : List (List String × ℚ)) (acc : List (String × ℚ)),
      (acc.map Prod.fst).Nodup →
      (((ps.foldl (fun acc p =>
          if p.2 ≤ 0 then acc
          else rankAccum (fun i => p.2 / (K + i)) acc p.1 1) acc)).map Prod.fst).Nodup := by
  intro ps
  induction ps with
  | nil => intro acc h; exact h
  | cons p rest ih =>
      intro acc h
      rw [List.foldl_cons]
      by_cases hw : p.2 ≤ 0
      · rw [if_pos hw]; exact ih acc h
      · rw [if_neg hw]; exact ih _ (keys_nodup_rankAccum _ p.1 acc 1 h)

/-- Accumulated value of the `weighted_average_rank` fold: every ranking
containing a candidate adds `weight * rank`. -/
theorem warFold_getD (c : String) :
    ∀ (ps : List (List String × ℚ)) (acc : List (String × ℚ)),
      (∀ p ∈ ps, p.1.Nodup) →
      (dictFind c (ps.foldl (fun acc p =>
          rankAccum (fun i => p.2 * i) acc p.1 1) acc)).getD 0 =
        (dictFind c acc).getD 0 +
        (ps.map (fun p =>
          if c ∈ p.1 then p.2 * ((p.1.indexOf c + 1 : Nat) : ℚ) else 0)).sum := by
  intro ps
  induction ps with
  | nil => intro acc _; simp
  | cons p rest ih =>
      intro acc hnd
      rw [List.foldl_cons, List.map_cons, List.sum_cons,
        ih _ (fun q hq => hnd q (List.mem_cons_of_mem _ hq)),
        rankAccum_find_getD _ c p.1 acc 1 (hnd p (List.mem_cons_self _ _))]
      by_cases hc : c ∈ p.1
      · rw [if_pos hc, if_pos hc]
        have harith : 1 + p.1.indexOf c = p.1.indexOf c + 1 := Nat.add_comm 1 _
        rw [harith]
        ring
      · rw [if_neg hc, if_neg hc]
        ring

/-- Domain of the `weighted_average_rank` fold: a candidate gets an entry
exactly when some ranking contains it. -/
theorem warFold_isSome (c : String) :
    ∀ (ps : List (List String × ℚ)) (acc : List (String × ℚ)),
      (dictFind c (ps.foldl (fun acc p =>
          rankAccum (fun i => p.2 * i) acc p.1 1) acc)).isSome ↔
        (dictFind c acc).isSome ∨ ∃ p ∈ ps, c ∈ p.1 := by
  intro ps
  induction ps with
  | nil => intro acc; simp
  | cons p rest ih =>
      intro acc
      rw [List.foldl_cons, ih, rankAccum_find_isSome]
      simp only [List.mem_cons]
      constructor
      · rintro ((h | hcl) | ⟨q, hq, hqq⟩)
        · exact Or.inl h
        · exact Or.inr ⟨p, Or.inl rfl, hcl⟩
        · exact Or.inr ⟨q, Or.inr hq, hqq⟩
      · rintro (h | ⟨q, (rfl | hq), hqq⟩)
        · exact Or.inl (Or.inl h)
        · exact Or.inl (Or.inr hqq)
        · exact Or.inr ⟨q, hq, hqq⟩

/-- The `weighted_average_rank` fold keeps the accumulator's keys
duplicate-free. -/
theorem keys_nodup_warFold :
    ∀ (ps : List (List String × ℚ)) (acc : List (String × ℚ)),
      (acc.map Prod.fst).Nodup →
      (((ps.foldl (fun acc p =>
          rankAccum (fun i => p.2 * i) acc p.1 1) acc)).map Prod.fst).Nodup := by
  intro ps
  induction ps with
  | nil => intro acc h; exact h
  | cons p rest ih =>
      intro acc h
      rw [List.foldl_cons]
      exact ih _ (keys_nodup_rankAccum _ p.1 acc 1 h)

/-- C6: `weighted_reciprocal_rank_fusion` fails on a list/weight length
mismatch and on a non-positive constant; otherwise each returned candidate's
fused score is the sum over the positive-weight lists containing it of
`weight / (constant + rank)` with 1-based ranks (lists with weight ≤ 0 are
skipped, and exactly the candidates of positive-weight lists appear), and
the returned mapping is ordered descending by fused score. -/
theorem wrrf_formula_skips_and_descending_order :
    (∀ (ls : List (List String)) (ws : List ℚ) (K : ℚ),
       ls.length ≠ ws.length →
         weighted_reciprocal_rank_fusion ls ws K =
           .error "rank_lists and weights must be the same length.") ∧
    (∀ (ls : List (List String)) (ws : List ℚ) (K : ℚ),
       ls.length = ws.length → K ≤ 0 →
         weighted_reciprocal_rank_fusion ls ws K = .error "constant must be positive.") ∧
    (∀ (ls : List (List String)) (ws : List ℚ) (K : ℚ) (out : List (String × ℚ)),
       (∀ l ∈ ls, l.Nodup) →
       weighted_reciprocal_rank_fusion ls ws K = .ok out →
       (∀ c v, (c, v) ∈ out → v = wrrfSpecScore ls ws K c) ∧
       (∀ c, (∃ v, (c, v) ∈ out) ↔ ∃ p ∈ ls.zip ws, 0 < p.2 ∧ c ∈ p.1) ∧
       out.Pairwise (fun a b => b.2 ≤ a.2)) := by
  have hok : ∀ (ls : List (List String)) (ws : List ℚ) (K : ℚ),
      ls.length = ws.length → ¬K ≤ 0 →
      weighted_reciprocal_rank_fusion ls ws K =
        .ok (sortDescBySnd ((ls.zip ws).foldl (fun acc p =>
          if p.2 ≤ 0 then acc
          else rankAccum (fun i => p.2 / (K + i)) acc p.1 1) [])) := by
    intro ls ws K h1 h2
    rw [weighted_reciprocal_rank_fusion, if_neg (not_ne_iff.mpr h1), if_neg h2]
  refine ⟨?_, ?_, ?_⟩
  · intro ls ws K h
    rw [weighted_reciprocal_rank_fusion, if_pos h]
  · intro ls ws K h1 h2
    rw [weighted_reciprocal_rank_fusion, if_neg (not_ne_iff.mpr h1), if_pos h2]
  · intro ls ws K out hnd heq
    by_cases h1 : ls.length = ws.length
    swap
    · rw [weighted_reciprocal_rank_fusion, if_pos h1] at heq
      exact Except.noConfusion heq
    by_cases h2 : K ≤ 0
    · rw [weighted_reciprocal_rank_fusion, if_neg (not_ne_iff.mpr h1), if_pos h2] at heq
      exact Except.noConfusion heq
    rw [hok ls ws K h1 h2] at heq
    simp only [Except.ok.injEq] at heq
    subst heq
    have hndzip : ∀ p ∈ ls.zip ws, p.1.Nodup := fun p hp => hnd p.1 (List.of_mem_zip hp).1
    have hkeys := keys_nodup_wrrfFold K (ls.zip ws) [] (by simp)
    refine ⟨?_, ?_, sortDescBySnd_pairwise String _⟩
    · intro c v hv
      have hvf := ((sortDescBySnd_perm String _).mem_iff).mp hv
      have hfind := dictFind_eq_of_mem c v _ hkeys hvf
      have hgetD := wrrfFold_getD K c (ls.zip ws) [] hndzip
      rw [hfind] at hgetD
      simp only [dictFind, Option.getD_some, Option.getD_none] at hgetD
      rw [wrrfSpecScore]
      rw [hgetD]
      ring
    · intro c
      constructor
      · rintro ⟨v, hv⟩
        have hvf := ((sortDescBySnd_perm String _).mem_iff).mp hv
        have hsome : (dictFind c ((ls.zip ws).foldl (fun acc p =>
            if p.2 ≤ 0 then acc
            else rankAccum (fun i => p.2 / (K + i)) acc p.1 1) [])).isSome := by
          rw [dictFind_eq_of_mem c v _ hkeys hvf]
          rfl
        have hres := (wrrfFold_isSome K c (ls.zip ws) []).mp hsome
        simpa [dictFind] using hres
      · intro hex
        have hsome := (wrrfFold_isSome K c (ls.zip ws) []).mpr (Or.inr hex)
        obtain ⟨v, hv⟩ := Option.isSome_iff_exists.mp hsome
        exact ⟨v, ((sortDescBySnd_perm String _).mem_iff).mpr (mem_of_dictFind_eq c v _ hv)⟩

unseal Rat.mul Rat.inv Rat.add Rat.sub in
/-- Witness for C6: the two rankings `[X, Y, Z]` and `[Y, X, Z]` with equal
weights `1/2` and constant 10; the fused mapping is
`X ↦ 23/264, Y ↦ 23/264, Z ↦ 1/13`, descending. -/
theorem wrrf_formula_skips_and_descending_order_witness :
    (∀ c v, (c, v) ∈ [("X", (23 : ℚ)/264), ("Y", (23 : ℚ)/264), ("Z", (1 : ℚ)/13)] →
       v = wrrfSpecScore [["X", "Y", "Z"], ["Y", "X", "Z"]] [1/2, 1/2] 10 c) ∧
    (∀ c, (∃ v, (c, v) ∈ [("X", (23 : ℚ)/264), ("Y", (23 : ℚ)/264), ("Z", (1 : ℚ)/13)]) ↔
       ∃ p ∈ [["X", "Y", "Z"], ["Y", "X", "Z"]].zip [(1 : ℚ)/2, 1/2], 0 < p.2 ∧ c ∈ p.1) ∧
    ([("X", (23 : ℚ)/264), ("Y", (23 : ℚ)/264), ("Z", (1 : ℚ)/13)].Pairwise
      (fun a b => b.2 ≤ a.2)) :=
  wrrf_formula_skips_and_descending_order.2.2
    [["X", "Y", "Z"], ["Y", "X", "Z"]] [1/2, 1/2] 10
    [("X", (23 : ℚ)/264), ("Y", (23 : ℚ)/264), ("Z", (1 : ℚ)/13)]
    (by decide) (by decide)

unseal Rat.mul Rat.inv Rat.add Rat.sub in
/-- C7: `weighted_average_rank` fails on a list/weight length mismatch and on
a non-positive total weight; otherwise each candidate appearing in at least
one list is mapped to the sum over lists containing it of `weight * rank`
divided by the sum of all weights.  Concretely, `[A, B, C]` with weight 7/10
and `[B, A, C]` with weight 3/10 give `A = 1.3`, `B = 1.7`, `C = 3`. -/
theorem weighted_average_rank_formula_and_errors :
    (∀ (ls : List (List String)) (ws : List ℚ),
       ls.length ≠ ws.length →
         weighted_average_rank ls ws =
           .error "rank_lists and weights must be the same length.") ∧
    (∀ (ls : List (List String)) (ws : List ℚ),
       ls.length = ws.length → ws.sum ≤ 0 →
         weighted_average_rank ls ws = .error "Sum of weights must be positive.") ∧
    (∀ (ls : List (List String)) (ws : List ℚ) (out : List (String × ℚ)),
       (∀ l ∈ ls, l.Nodup) →
       weighted_average_rank ls ws = .ok out →
       (∀ c v, (c, v) ∈ out → v = warSpecScore ls ws c) ∧
       (∀ c, (∃ v, (c, v) ∈ out) ↔ ∃ p ∈ ls.zip ws, c ∈ p.1)) ∧
    (weighted_average_rank [["A", "B", "C"], ["B", "A", "C"]] [7/10, 3/10] =
       .ok [("A", (13 : ℚ)/10), ("B", (17 : ℚ)/10), ("C", 3)]) := by
  have hok : ∀ (ls : List (List String)) (ws : List ℚ),
      ls.length = ws.length → ¬ws.sum ≤ 0 →
      weighted_average_rank ls ws =
        .ok (((ls.zip ws).foldl (fun acc p =>
          rankAccum (fun i => p.2 * i) acc p.1 1) []).map
            (fun kv => (kv.1, kv.2 / ws.sum))) := by
    intro ls ws h1 h2
    rw [weighted_average_rank, if_neg (not_ne_iff.mpr h1), if_neg h2]
  refine ⟨?_, ?_, ?_, by decide⟩
  · intro ls ws h
    rw [weighted_average_rank, if_pos h]
  · intro ls ws h1 h2
    rw [weighted_average_rank, if_neg (not_ne_iff.mpr h1), if_pos h2]
  · intro ls ws out hnd heq
    by_cases h1 : ls.length = ws.length
    swap
    · rw [weighted_average_rank, if_pos h1] at heq
      exact Except.noConfusion heq
    by_cases h2 : ws.sum ≤ 0
    · rw [weighted_average_rank, if_neg (not_ne_iff.mpr h1), if_pos h2] at heq
      exact Except.noConfusion heq
    rw [hok ls ws h1 h2] at heq
    simp only [Except.ok.injEq] at heq
    subst heq
    have hndzip : ∀ p ∈ ls.zip ws, p.1.Nodup := fun p hp => hnd p.1 (List.of_mem_zip hp).1
    have hkeys := keys_nodup_warFold (ls.zip ws) [] (by simp)
    constructor
    · intro c v hv
      obtain ⟨kv, hkv, heq2⟩ := List.mem_map.mp hv
      obtain ⟨rfl, rfl⟩ : kv.1 = c ∧ kv.2 / ws.sum = v :=
        ⟨congrArg Prod.fst heq2, congrArg Prod.snd heq2⟩
      have hfind := dictFind_eq_of_mem kv.1 kv.2 _ hkeys hkv
      have hgetD := warFold_getD kv.1 (ls.zip ws) [] hndzip
      rw [hfind] at hgetD
      simp only [dictFind, Option.getD_some, Option.getD_none] at hgetD
      rw [warSpecScore, hgetD, zero_add]
    · intro c
      constructor
      · rintro ⟨v, hv⟩
        obtain ⟨kv, hkv, heq2⟩ := List.mem_map.mp hv
        have hc : kv.1 = c := congrArg Prod.fst heq2
        subst hc
        have hsome : (dictFind kv.1 ((ls.zip ws).foldl (fun acc p =>
            rankAccum (fun i => p.2 * i) acc p.1 1) [])).isSome := by
          rw [dictFind_eq_of_mem kv.1 kv.2 _ hkeys hkv]
          rfl
        have hres := (warFold_isSome kv.1 (ls.zip ws) []).mp hsome
        simpa [dictFind] using hres
      · intro hex
        have hsome := (warFold_isSome c (ls.zip ws) []).mpr (Or.inr hex)
        obtain ⟨v, hv⟩ := Option.isSome_iff_exists.mp hsome
        refine ⟨v / ws.sum, List.mem_map.mpr ⟨(c, v), mem_of_dictFind_eq c v _ hv, rfl⟩⟩

unseal Rat.mul Rat.inv Rat.add Rat.sub in
/-- Witness for C7: the concrete rankings `[A, B, C]` (weight 7/10) and
`[B, A, C]` (weight 3/10). -/
theorem weighted_average_rank_formula_and_errors_witness :
    (∀ c v, (c, v) ∈ [("A", (13 : ℚ)/10), ("B", (17 : ℚ)/10), ("C", 3)] →
       v = warSpecScore [["A", "B", "C"], ["B", "A", "C"]] [7/10, 3/10] c) ∧
    (∀ c, (∃ v, (c, v) ∈ [("A", (13 : ℚ)/10), ("B", (17 : ℚ)/10), ("C", 3)]) ↔
       ∃ p ∈ [["A", "B", "C"], ["B", "A", "C"]].zip [(7 : ℚ)/10, 3/10], c ∈ p.1) :=
  weighted_average_rank_formula_and_errors.2.2.1
    [["A", "B", "C"], ["B", "A", "C"]] [7/10, 3/10]
    [("A", (13 : ℚ)/10), ("B", (17 : ℚ)/10), ("C", 3)]
    (by decide) (by decide)

/-- C4: absent or empty stages are skipped entirely when fusing one input —
they contribute no ranked list and no weight (never a score of 0) — and the
surviving stages' configured weights are renormalized by dividing each by
their sum, so the weights handed to fusion sum to 1 (whenever that sum is
non-zero, which is the only case in which the code divides); with original
weights 1/2, 3/10, 1/5 and only the first two stages present, fusion runs
on weights 5/8 and 3/8. -/
theorem aggregate_skips_absent_stages_and_renormalizes :
    (∀ (rest : List (Option (List (String × ℚ)) × ℚ)) (w : ℚ),
       survivingStages ((none, w) :: rest) = survivingStages rest) ∧
    (∀ (rest : List (Option (List (String × ℚ)) × ℚ)) (w : ℚ),
       survivingStages ((some [], w) :: rest) = survivingStages rest) ∧
    (∀ (rest : List (Option (List (String × ℚ)) × ℚ)) (s : List (String × ℚ)) (w : ℚ),
       s ≠ [] → survivingStages ((some s, w) :: rest) = (s, w) :: survivingStages rest) ∧
    (∀ (stages : List (Option (List (String × ℚ)) × ℚ)) (K : ℚ),
       survivingStages stages ≠ [] →
       ((survivingStages stages).map Prod.snd).sum ≠ 0 →
       fuseInput stages K = some (weighted_reciprocal_rank_fusion
         ((survivingStages stages).map (fun p => rankListOf p.1))
         (((survivingStages stages).map Prod.snd).map
           (fun w => w / ((survivingStages stages).map Prod.snd).sum)) K) ∧
       (((survivingStages stages).map Prod.snd).map
           (fun w => w / ((survivingStages stages).map Prod.snd).sum)).sum = 1) ∧
    (fuseInput [(some [("p1", 1)], 1/2), (some [("p1", 1)], 3/10), (none, 1/5)] 60 =
       some (weighted_reciprocal_rank_fusion [["p1"], ["p1"]] [5/8, 3/8] 60)) := by
  have hdiv : ∀ (l : List ℚ) (T : ℚ), T ≠ 0 → (l.map (fun w => w / T)).sum = l.sum / T := by
    intro l T _
    induction l with
    | nil => simp
    | cons a r ih =>
        simp only [List.map_cons, List.sum_cons, ih]
        ring
  refine ⟨?_, ?_, ?_, ?_, ?_⟩
  · intro rest w
    rfl
  · intro rest w
    rfl
  · intro rest s w hs
    cases s with
    | nil => exact absurd rfl hs
    | cons a l => rfl
  · intro stages K hne hsum
    constructor
    · rw [fuseInput]
      simp only [if_neg (show ¬(survivingStages stages).isEmpty = true by
        simpa [List.isEmpty_iff] using hne), if_pos hsum]
    · rw [hdiv _ _ hsum, div_self hsum]
  · have hs : survivingStages [(some [("p1", (1 : ℚ))], 1/2), (some [("p1", 1)], 3/10),
        (none, 1/5)] = [([("p1", (1 : ℚ))], 1/2), ([("p1", 1)], 3/10)] := rfl
    rw [fuseInput, hs]
    norm_num [rankListOf, sortDescBySnd, insertDesc, Function.comp]

/-- Witness for C4: two present stages with weights 1/2 and 3/10 and one
absent stage with weight 1/5. -/
theorem aggregate_skips_absent_stages_and_renormalizes_witness :
    (fuseInput [(some [("p1", 1)], 1/2), (some [("p1", 1)], 3/10), (none, 1/5)] 60 =
       some (weighted_reciprocal_rank_fusion
         ((survivingStages [(some [("p1", (1 : ℚ))], 1/2), (some [("p1", 1)], 3/10), (none, 1/5)]).map
           (fun p => rankListOf p.1))
         (((survivingStages [(some [("p1", (1 : ℚ))], 1/2), (some [("p1", 1)], 3/10), (none, 1/5)]).map
            Prod.snd).map
           (fun w => w / ((survivingStages [(some [("p1", (1 : ℚ))], 1/2), (some [("p1", 1)], 3/10),
             (none, 1/5)]).map Prod.snd).sum)) 60)) ∧
    (((survivingStages [(some [("p1", (1 : ℚ))], 1/2), (some [("p1", 1)], 3/10), (none, 1/5)]).map
        Prod.snd).map
      (fun w => w / ((survivingStages [(some [("p1", (1 : ℚ))], 1/2), (some [("p1", 1)], 3/10),
        (none, 1/5)]).map Prod.snd).sum)).sum = 1 :=
  aggregate_skips_absent_stages_and_renormalizes.2.2.2.1
    [(some [("p1", 1)], 1/2), (some [("p1", 1)], 3/10), (none, 1/5)] 60
    (by decide) (by norm_num [survivingStages])

/-- C1 (amended): the dti stage scores each pair with the Scorer on
`(input.value, partner.value, "dti")`, while the docking and MM/GBSA stages
score with the Scorer on `(input_id, partner_id, stage_tag)` — the record
ids, not the value strings. -/
theorem stage_scores_use_values_then_ids :
    (∀ (record : InputRecord) (partners : List PartnerRecord) (topK : Nat),
       ∀ row ∈ rankPartners record partners topK, ∃ p ∈ partners,
         row.partner_id = p.id ∧
         row.score = deterministicScore [record.value, p.value, "dti"]) ∧
    (∀ (candidates : List ScoreRow) (topK : ℤ),
       ∀ row ∈ dockingScoreGroup candidates topK, ∃ item ∈ candidates,
         row.partner_id = item.partner_id ∧
         row.score = deterministicScore [item.input_id, item.partner_id, "docking"]) ∧
    (∀ (candidates : List ScoreRow) (topK : ℤ),
       ∀ row ∈ mmgbsaScoreGroup candidates topK, ∃ item ∈ candidates,
         row.partner_id = item.partner_id ∧
         row.score = deterministicScore [item.input_id, item.partner_id, "mmgbsa"]) := by
  refine ⟨?_, ?_, ?_⟩
  · intro record partners topK row hrow
    simp only [rankPartners] at hrow
    obtain ⟨⟨k, pr⟩, hmem, rfl⟩ := List.mem_map.mp hrow
    have h1 : pr ∈ ((sortDescBySnd (partners.map (fun partner =>
        (partner, deterministicScore [record.value, partner.value, "dti"])))).take topK) := by
      have hpr := List.mem_map_of_mem Prod.snd hmem
      rwa [List.enum_map_snd] at hpr
    have h2 := List.mem_of_mem_take h1
    have h3 := ((sortDescBySnd_perm _ _).mem_iff).mp h2
    obtain ⟨p, hp, rfl⟩ := List.mem_map.mp h3
    exact ⟨p, hp, rfl, rfl⟩
  · intro candidates topK row hrow
    simp only [dockingScoreGroup] at hrow
    obtain ⟨⟨k, pr⟩, hmem, rfl⟩ := List.mem_map.mp hrow
    have h1 : pr ∈ ((sortDescBySnd (candidates.map (fun item =>
        (item, deterministicScore [item.input_id, item.partner_id, "docking"])))).take
          (max 1 topK).toNat) := by
      have hpr := List.mem_map_of_mem Prod.snd hmem
      rwa [List.enum_map_snd] at hpr
    have h2 := List.mem_of_mem_take h1
    have h3 := ((sortDescBySnd_perm _ _).mem_iff).mp h2
    obtain ⟨item, hitem, rfl⟩ := List.mem_map.mp h3
    exact ⟨item, hitem, rfl, rfl⟩
  · intro candidates topK row hrow
    simp only [mmgbsaScoreGroup] at hrow
    obtain ⟨⟨k, pr⟩, hmem, rfl⟩ := List.mem_map.mp hrow
    have h1 : pr ∈ ((sortDescBySnd (candidates.map (fun item =>
        (item, deterministicScore [item.input_id, item.partner_id, "mmgbsa"])))).take
          (max 1 topK).toNat) := by
      have hpr := List.mem_map_of_mem Prod.snd hmem
      rwa [List.enum_map_snd] at hpr
    have h2 := List.mem_of_mem_take h1
    have h3 := ((sortDescBySnd_perm _ _).mem_iff).mp h2
    obtain ⟨item, hitem, rfl⟩ := List.mem_map.mp h3
    exact ⟨item, hitem, rfl, rfl⟩

/-- Witness for C1 (amended): the dti stage on the single input
`{id := i1, value := VAL_A}` against the single partner
`{id := p1, value := VAL_B}`. -/
theorem stage_scores_use_values_then_ids_witness :
    ∃ p ∈ [(⟨"p1", "ligand", "VAL_B"⟩ : PartnerRecord)],
      (⟨"i1", "p1", "ligand", "dti",
        deterministicScore ["VAL_A", "VAL_B", "dti"], 1⟩ : ScoreRow).partner_id = p.id ∧
      (⟨"i1", "p1", "ligand", "dti",
        deterministicScore ["VAL_A", "VAL_B", "dti"], 1⟩ : ScoreRow).score =
        deterministicScore ["VAL_A", p.value, "dti"] :=
  stage_scores_use_values_then_ids.1 ⟨"i1", "protein", "VAL_A"⟩
    [⟨"p1", "ligand", "VAL_B"⟩] 3
    ⟨"i1", "p1", "ligand", "dti", deterministicScore ["VAL_A", "VAL_B", "dti"], 1⟩
    (by rw [show rankPartners ⟨"i1", "protein", "VAL_A"⟩ [⟨"p1", "ligand", "VAL_B"⟩] 3 =
        [⟨"i1", "p1", "ligand", "dti", deterministicScore ["VAL_A", "VAL_B", "dti"], 1⟩]
      from rfl]
        exact List.mem_singleton.mpr rfl)

/-- Counterexample to C1 as stated: running the docking stage on the dti
output for the input record `{id := i1, value := VAL_A}` and partner
`{id := p1, value := VAL_B}` assigns the score
`deterministic_score("i1", "p1", "docking")` — computed from the ids — which
differs from `deterministic_score("VAL_A", "VAL_B", "docking")`, the value
computed from the records' value strings as the claim requires.  Both BLAKE2b
digests are evaluated concretely. -/
theorem docking_scores_ids_not_values :
    ((dockingScoreGroup
        (rankPartners ⟨"i1", "protein", "VAL_A"⟩ [⟨"p1", "ligand", "VAL_B"⟩] 3) 2).map
      (fun r => r.score)) = [deterministicScore ["i1", "p1", "docking"]] ∧
    deterministicScore ["i1", "p1", "docking"] ≠
      deterministicScore ["VAL_A", "VAL_B", "docking"] := by
  constructor
  · rfl
  · intro h
    simp only [deterministicScore, dsNum_dock_ids, dsNum_dock_values] at h
    norm_num at h

/-- C2 (amended): a stage `top_k` below 1 is silently clamped to 1
(`max(1, top_k)`); the stage executes normally with effective `top_k = 1`
and no error is raised. -/
theorem top_k_below_one_silently_clamped :
    ∀ k : ℤ, k < 1 →
      (max 1 k).toNat = 1 ∧
      (∀ (partnersFor : String → List PartnerRecord) (chunk : List InputRecord),
        scoreChunk k partnersFor chunk = scoreChunk 1 partnersFor chunk) ∧
      (∀ candidates : List ScoreRow,
        dockingScoreGroup candidates k = dockingScoreGroup candidates 1) ∧
      (∀ candidates : List ScoreRow,
        mmgbsaScoreGroup candidates k = mmgbsaScoreGroup candidates 1) := by
  intro k hk
  have hmax : max (1 : ℤ) k = 1 := max_eq_left (by omega)
  refine ⟨by rw [hmax]; rfl, ?_, ?_, ?_⟩
  · intro partnersFor chunk
    simp only [scoreChunk, hmax, max_self]
  · intro candidates
    simp only [dockingScoreGroup, hmax, max_self]
  · intro candidates
    simp only [mmgbsaScoreGroup, hmax, max_self]

/-- Witness for C2 (amended) at `top_k = 0`. -/
theorem top_k_below_one_silently_clamped_witness :
    (max 1 (0 : ℤ)).toNat = 1 ∧
    (∀ (partnersFor : String → List PartnerRecord) (chunk : List InputRecord),
      scoreChunk 0 partnersFor chunk = scoreChunk 1 partnersFor chunk) ∧
    (∀ candidates : List ScoreRow,
      dockingScoreGroup candidates 0 = dockingScoreGroup candidates 1) ∧
    (∀ candidates : List ScoreRow,
      mmgbsaScoreGroup candidates 0 = mmgbsaScoreGroup candidates 1) :=
  top_k_below_one_silently_clamped 0 (by decide)

/-- Counterexample to C2 as stated: with `dti_top_k = 0` (which is `< 1`) the
dti chunk scorer runs to completion, produces the same single-row output as
`top_k = 1`, and raises no error — the invalid `top_k` is silently corrected
rather than fatal. -/
theorem top_k_zero_executes_normally :
    scoreChunk 0 (fun _ => [⟨"p1", "ligand", "VAL_B"⟩]) [⟨"i1", "protein", "VAL_A"⟩] =
      scoreChunk 1 (fun _ => [⟨"p1", "ligand", "VAL_B"⟩]) [⟨"i1", "protein", "VAL_A"⟩] ∧
    (scoreChunk 0 (fun _ => [⟨"p1", "ligand", "VAL_B"⟩]) [⟨"i1", "protein", "VAL_A"⟩]).length = 1 := by
  exact ⟨rfl, rfl⟩

end DuetScreen
